import Mathlib

set_option maxHeartbeats 1000000

/-!
Verification of the thread-aware retrieval engine of the AIEmailSummary
repository. The definitions below are shallow embeddings of the Python
functions in src/rag_engine.py, src/vector_store.py and src/llm_client.py.
Email metadata dictionaries become the structure Meta, search hits become
the structure Email, and the external generation backend and the vector
index are passed in as explicit parameters. Python datetimes are modelled
as seconds since 0001-01-01T00:00 (which is a Monday, matching the Python
weekday convention); the bounded range of datetime and timedelta is
modelled by explicit OverflowError results.
-/

/-- Character-list version of the Python substring test: does the first
list occur at the very start of the second. -/
def startsWithChars : List Char → List Char → Bool
  | [], _ => true
  | _ :: _, [] => false
  | a :: as, b :: bs => (a = b) && startsWithChars as bs

/-- Does the needle occur anywhere inside the haystack, as with the Python
expression needle in haystack. -/
def hasSubChars (needle : List Char) : List Char → Bool
  | [] => needle.isEmpty
  | b :: bs => startsWithChars needle (b :: bs) || hasSubChars needle bs

/-- Python membership test needle in hay on strings. -/
def strIn (needle hay : String) : Bool :=
  hasSubChars needle.data hay.data

/-- The ASCII apostrophe character as a one-character string, used to build
the phrase list of the query classifier. -/
def apos : String := String.singleton (Char.ofNat 39)

/-- The Python str.lower call, modelled character by character. -/
def pyLower (s : String) : String := String.mk (s.data.map Char.toLower)

/-- Values stored in the dictionary payloads the engine builds: strings,
booleans and (for the relevance score) rationals. -/
inductive Val where
  | s (v : String)
  | b (v : Bool)
  | q (v : Rat)
deriving DecidableEq

/-- Metadata record of one stored email, mirroring the fields that
EmailVectorStore reads from a ChromaDB metadata dictionary. A missing
dictionary key corresponds to the default value of the field. -/
structure Meta where
  id : String := ""
  conversation_id : String := ""
  direction : String := ""
  is_replied : Bool := false
  is_read : Bool := false
  subject : String := ""
  sender : String := ""
  sender_name : String := ""
  date : String := ""
deriving DecidableEq

/-- A search hit or thread record as passed around by the RAG engine:
an id, the document text, the metadata projection and the relevance score
(1 - cosine distance, exact rational in the model). -/
structure Email where
  id : String := ""
  document : String := ""
  metadata : Meta := {}
  relevance : Rat := 0
deriving DecidableEq

/-- Raw hit as returned by the ChromaDB query call, before
EmailVectorStore.search formats it: carries the cosine distance. -/
structure RawHit where
  id : String := ""
  document : String := ""
  metadata : Meta := {}
  distance : Rat := 0
deriving DecidableEq

/-- One entry of the list returned by EmailVectorStore.get_open_items. -/
structure OpenItem where
  conversation_id : String
  subject : String
  sender : String
  sender_name : String
  date : String
  message_count : Nat
  status : String
  participants : List String
deriving DecidableEq

/-- Result of RAGEngine._detect_query_type: an intent tag plus the filter
fragment, kept as a key-value list in dictionary insertion order. -/
structure QueryIntent where
  type : String
  filters : List (String × Val)
deriving DecidableEq

/-- Result dictionary of the blocking RAGEngine.query operation. -/
structure QueryResult where
  answer : String
  sources : List (List (String × Val))
  query_type : String
  emails_found : Nat
  threads_included : Nat
deriving DecidableEq

/-- One event yielded by the streaming RAGEngine.query_stream generator. -/
inductive StreamEvent where
  | chunk (content : String)
  | sources (content : List (List (String × Val)))
deriving DecidableEq

/-- Insert one element into a list that is kept sorted in ascending key
order, placing it after every element whose key is less or equal: this is
the stable insertion used to model the Python list.sort with a key. -/
def insertByKey (key : α → String) (a : α) : List α → List α
  | [] => [a]
  | b :: bs => if key b ≤ key a then b :: insertByKey key a bs else a :: b :: bs

/-- Stable ascending sort by a string key, modelling list.sort(key=...). -/
def sortByKey (key : α → String) (l : List α) : List α :=
  l.foldl (fun acc a => insertByKey key a acc) []

/-- Stable descending insertion, used to model sort(key=..., reverse=True). -/
def insertByKeyDesc (key : α → String) (a : α) : List α → List α
  | [] => [a]
  | b :: bs => if key a ≤ key b then b :: insertByKeyDesc key a bs else a :: b :: bs

/-- Stable descending sort by a string key. -/
def sortByKeyDesc (key : α → String) (l : List α) : List α :=
  l.foldl (fun acc a => insertByKeyDesc key a acc) []

/-- Distinct elements of a string list in first-seen order, modelling the
iteration order of a Python dict or the construction of a set. -/
def dedupFirstSeen (l : List String) : List String :=
  l.foldl (fun acc s => if s ∈ acc then acc else acc ++ [s]) []

/-- Status derivation of EmailVectorStore.get_open_items from the latest
record of a thread (vector_store.py lines 188-201). -/
def threadStatusOf (latest : Meta) : String :=
  if latest.direction = "received" ∧ latest.is_replied = false then "needs_action"
  else if latest.direction = "sent" then "awaiting_response"
  else if latest.direction = "received" ∧ latest.is_replied = true then "completed"
  else "completed"

/-- Keys of the threads dictionary of get_open_items in insertion order:
the distinct non-empty conversation ids in first appearance order. -/
def firstSeenConvIds (results : List Meta) : List String :=
  dedupFirstSeen ((results.map (fun m => m.conversation_id)).filter (fun c => c ≠ ""))

/-- The OpenItem built for one conversation id by the per-thread analysis
of get_open_items; none when the thread is completed and skipped. -/
def threadItem (results : List Meta) (c : String) : Option OpenItem :=
  let messages := results.filter (fun m => m.conversation_id = c)
  match (sortByKey (fun m => m.date) messages).getLast? with
  | none => none
  | some latest =>
    let status := threadStatusOf latest
    if status = "completed" then none
    else some {
      conversation_id := c
      subject := latest.subject
      sender := latest.sender
      sender_name := latest.sender_name
      date := latest.date
      message_count := messages.length
      status := status
      participants := dedupFirstSeen ((messages.filter (fun m => m.sender ≠ "")).map (fun m => m.sender)) }

/-- The OpenItem built for a standalone record (empty conversation id,
received and not replied) by get_open_items. -/
def standaloneItem (m : Meta) : OpenItem :=
  { conversation_id := ""
    subject := m.subject
    sender := m.sender
    sender_name := m.sender_name
    date := m.date
    message_count := 1
    status := "needs_action"
    participants := [m.sender] }

/-- The aggregation body of get_open_items over the fetched records:
group by conversation id, analyze each thread, add standalone items, and
sort by date descending (vector_store.py lines 167-235). -/
def aggregateOpenItems (results : List Meta) : List OpenItem :=
  let items := (firstSeenConvIds results).filterMap (threadItem results)
  let st := (results.filter
      (fun m => m.conversation_id = "" ∧ m.direction = "received" ∧ m.is_replied = false)).map
    standaloneItem
  sortByKeyDesc (fun i => i.date) (items ++ st)

/-- EmailVectorStore.get_open_items: returns [] on an empty store and
otherwise aggregates over the first min(total, 5000) stored records
(vector_store.py lines 154-165). -/
def get_open_items (store : List Meta) : List OpenItem :=
  if store.length = 0 then []
  else aggregateOpenItems (store.take (min store.length 5000))

/-- EmailVectorStore.get_thread_emails: all store records with the given
conversation id, sorted ascending by date; empty for the empty id
(vector_store.py lines 116-140). -/
def getThreadEmails (store : List Email) (conversationId : String) : List Email :=
  if conversationId = "" then []
  else sortByKey (fun e => e.metadata.date) (store.filter (fun e => e.metadata.conversation_id = conversationId))

/-- The conversation id read by the thread expander from a hit:
email.get('metadata', \x7b\x7d).get('conversation_id', ''). -/
def emailConv (e : Email) : String := e.metadata.conversation_id

/-- Ids of a list of emails. -/
def idsOf (l : List Email) : List String := l.map (fun e => e.id)

/-- Loop state of RAGEngine._expand_with_threads: the seen id set, the
processed conversation id set and the output list. -/
structure ExpState where
  seen : List String
  seenConvs : List String
  expanded : List Email

/-- Inner loop body of _expand_with_threads over the fetched thread
records: append each record whose id was not seen yet. -/
def addThread (st : ExpState) (te : Email) : ExpState :=
  if te.id ∈ st.seen then st
  else ⟨te.id :: st.seen, st.seenConvs, st.expanded ++ [te]⟩

/-- Outer loop body of _expand_with_threads for one seed hit
(rag_engine.py lines 118-138). -/
def expandStep (fetchThread : String → List Email) (st : ExpState) (email : Email) : ExpState :=
  if email.id ∈ st.seen then st
  else
    let seen1 := email.id :: st.seen
    if emailConv email ≠ "" ∧ emailConv email ∉ st.seenConvs then
      let st2 : ExpState := ⟨seen1, emailConv email :: st.seenConvs, st.expanded⟩
      let st3 := (fetchThread (emailConv email)).foldl addThread st2
      if email.id ∈ idsOf st3.expanded then st3
      else ⟨st3.seen, st3.seenConvs, st3.expanded ++ [email]⟩
    else ⟨seen1, st.seenConvs, st.expanded ++ [email]⟩

/-- RAGEngine._expand_with_threads: expand a seed hit list with all the
records of the conversation threads the seeds touch, deduplicated by id
(rag_engine.py lines 108-140). -/
def expandWithThreads (fetchThread : String → List Email) (emails : List Email) : List Email :=
  (emails.foldl (expandStep fetchThread) ⟨[], [], []⟩).expanded

/-- Invariant of the expansion loop state between two seed iterations:
the seen id set is exactly the id set of the output, the output ids are
duplicate-free, every processed conversation has all its fetched record
ids in the seen set, and every seen id stems either from a processed
conversation fetch or from a seed whose conversation is empty or already
processed. -/
structure ExpInv (f : String → List Email) (seeds : List Email) (st : ExpState) : Prop where
  seen_eq : ∀ a, a ∈ st.seen ↔ a ∈ idsOf st.expanded
  nodup : (idsOf st.expanded).Nodup
  covered : ∀ c ∈ st.seenConvs, ∀ te ∈ f c, te.id ∈ st.seen
  src : ∀ a ∈ st.seen,
    (∃ c ∈ st.seenConvs, ∃ te ∈ f c, te.id = a)
    ∨ (∃ s ∈ seeds, s.id = a ∧ (emailConv s = "" ∨ emailConv s ∈ st.seenConvs))

/-- Invariant inside the thread fetch loop of one seed iteration with id
x: the seen set is the output id set plus x, the output ids are
duplicate-free, and x is not yet among the output ids. -/
structure MidInv (st : ExpState) (x : String) : Prop where
  seen_eq : ∀ a, a ∈ st.seen ↔ a = x ∨ a ∈ idsOf st.expanded
  nodup : (idsOf st.expanded).Nodup
  x_not : x ∉ idsOf st.expanded

/-- RAGEngine._detect_query_type: lexical intent classification over the
lower-cased query, first rule that matches wins (rag_engine.py lines
53-80). The apostrophe of one listed phrase is built with apos. -/
def detectQueryType (query : String) : QueryIntent :=
  let q := pyLower query
  if ["action", "todo", "to-do", "need to", "should", "must", "pending", "waiting"].any
      (fun w => strIn w q) then
    ⟨"action_needed", [("direction", Val.s "received"), ("is_replied", Val.b false)]⟩
  else if ["i sent", "my sent", "haven" ++ apos ++ "t heard", "no response", "waiting for reply",
      "follow up"].any (fun w => strIn w q) then
    ⟨"sent_followup", [("direction", Val.s "sent"), ("is_replied", Val.b false)]⟩
  else if strIn "unread" q then
    ⟨"unread", [("is_read", Val.b false), ("direction", Val.s "received")]⟩
  else
    ⟨"general", []⟩

/-- Match attempt of the regular expression tail after the literal past or
last keyword: one or more whitespace, one or more digits (the capture),
one or more whitespace, then the literal day. Greedy matching of the
disjoint character classes needs no backtracking. -/
def matchAfterKeyword (rest : List Char) : Option (List Char) :=
  let sp1 := rest.span (fun c => c.isWhitespace)
  if sp1.1.isEmpty then none
  else
    let dg := sp1.2.span (fun c => c.isDigit)
    if dg.1.isEmpty then none
    else
      let sp2 := dg.2.span (fun c => c.isWhitespace)
      if sp2.1.isEmpty then none
      else if startsWithChars ['d', 'a', 'y'] sp2.2 then some dg.1
      else none

/-- Leftmost search of the Python pattern for last or past N days inside a
character list, returning the digit capture of the first match. -/
def findDaysCapture : List Char → Option (List Char)
  | [] => none
  | c :: rest =>
    if startsWithChars ['p', 'a', 's', 't'] (c :: rest) then
      match matchAfterKeyword rest.tail.tail.tail with
      | some d => some d
      | none => findDaysCapture rest
    else if startsWithChars ['l', 'a', 's', 't'] (c :: rest) then
      match matchAfterKeyword rest.tail.tail.tail with
      | some d => some d
      | none => findDaysCapture rest
    else findDaysCapture rest

/-- Decimal value of a digit capture, modelling the Python int call. -/
def digitsToNat (ds : List Char) : Nat :=
  ds.foldl (fun n c => n * 10 + (c.toNat - 48)) 0

/-- Seconds in one day. -/
def daySec : Nat := 86400

/-- RAGEngine._parse_time_reference (rag_engine.py lines 23-51) over a
clock value in seconds since 0001-01-01T00:00 (a Monday). Python raises
OverflowError when a timedelta exceeds 999999999 days or a datetime
subtraction falls before datetime.min; both appear as error results. -/
def parseTimeRef (q : String) (now : Nat) : Except String (Option (Nat × Nat)) :=
  let ql := (pyLower q).data
  if hasSubChars "today".data ql then
    Except.ok (some ((now / daySec) * daySec, now))
  else if hasSubChars "yesterday".data ql then
    if now < daySec then Except.error "OverflowError"
    else
      let y := now - daySec
      Except.ok (some ((y / daySec) * daySec, (y / daySec) * daySec + 86399))
  else if hasSubChars "this week".data ql then
    let wd := (now / daySec) % 7
    let startRaw := now - wd * daySec
    Except.ok (some ((startRaw / daySec) * daySec, now))
  else if hasSubChars "last week".data ql then
    let wd := (now / daySec) % 7
    if now < (wd + 7) * daySec then Except.error "OverflowError"
    else
      let startRaw := now - (wd + 7) * daySec
      Except.ok (some ((startRaw / daySec) * daySec, startRaw + 6 * daySec + 23 * 3600 + 59 * 60))
  else
    match findDaysCapture ql with
    | some ds =>
      let days := digitsToNat ds
      if 999999999 < days then Except.error "OverflowError"
      else if now < days * daySec then Except.error "OverflowError"
      else Except.ok (some (now - days * daySec, now))
    | none => Except.ok none

/-- Boolean guard expressing that the digit capture of a query, if any,
stays inside the bounds of timedelta and of the datetime subtraction. -/
def captureOk (q : String) (now : Nat) : Bool :=
  match findDaysCapture ((pyLower q).data) with
  | none => true
  | some ds => decide (digitsToNat ds ≤ 999999999) && decide (digitsToNat ds * daySec ≤ now)

/-- Formatting of one raw ChromaDB hit by EmailVectorStore.search:
relevance is one minus the distance (vector_store.py lines 103-111). -/
def formatHit (r : RawHit) : Email :=
  { id := r.id, document := r.document, metadata := r.metadata, relevance := 1 - r.distance }

/-- EmailVectorStore.search with its no-filter fallback (vector_store.py
lines 78-114). The external index is the function queryFn from an optional
filter to raw hits; the first component of the result is the trace of
filters actually sent to the index, in call order. -/
def vsSearch {φ : Type} (queryFn : Option φ → List RawHit) (w : Option φ) :
    List (Option φ) × List Email :=
  let results := queryFn w
  match w with
  | some wf =>
    if results.isEmpty then ([some wf, none], (queryFn none).map formatHit)
    else ([some wf], results.map formatHit)
  | none => ([none], results.map formatHit)

/-- Rounding of the percentage relevance, modelling round(rel * 100, 1)
on exact rationals. -/
def roundPct (r : Rat) : Rat := (round (r * 1000) : Int) / 10

/-- One citation dictionary of the blocking RAGEngine.query path
(rag_engine.py lines 170-179). -/
def blockingSource (e : Email) : List (String × Val) :=
  [("sender", Val.s (if e.metadata.sender_name ≠ "" then e.metadata.sender_name else e.metadata.sender)),
   ("subject", Val.s e.metadata.subject),
   ("date", Val.s e.metadata.date),
   ("relevance", Val.q (roundPct e.relevance)),
   ("conversation_id", Val.s e.metadata.conversation_id)]

/-- Citation list of the blocking path: first ten seed hits. -/
def buildSources (emails : List Email) : List (List (String × Val)) :=
  (emails.take 10).map blockingSource

/-- One citation dictionary of the streaming RAGEngine.query_stream path
(rag_engine.py lines 211-219). -/
def streamSource (e : Email) : List (String × Val) :=
  [("sender", Val.s (if e.metadata.sender_name ≠ "" then e.metadata.sender_name else e.metadata.sender)),
   ("subject", Val.s e.metadata.subject),
   ("date", Val.s e.metadata.date),
   ("conversation_id", Val.s e.metadata.conversation_id)]

/-- Citation list of the streaming path: first ten seed hits. -/
def buildStreamSources (emails : List Email) : List (List (String × Val)) :=
  (emails.take 10).map streamSource

/-- The threads_included count of RAGEngine.query: number of distinct
non-empty conversation ids in the expanded working set. -/
def threadsIncluded (emailsWithThreads : List Email) : Nat :=
  (dedupFirstSeen ((emailsWithThreads.map (fun e => e.metadata.conversation_id)).filter
    (fun c => c ≠ ""))).length

/-- RAGEngine.query after the search call (rag_engine.py lines 142-191):
seeds are the search results, the store backs the thread fetches and
llmOutcome is the outcome of the generation backend call, an answer or a
raised exception message. The exception is caught and turned into the
error answer string; every other field is computed as on success. -/
def ragQuery (userQuery : String) (seeds : List Email) (store : List Email)
    (llmOutcome : Except String String) : QueryResult :=
  let queryInfo := detectQueryType userQuery
  let expanded := expandWithThreads (getThreadEmails store) seeds
  let answer :=
    match llmOutcome with
    | Except.ok a => a
    | Except.error e => "Error generating response: " ++ e
  { answer := answer
    sources := buildSources seeds
    query_type := queryInfo.type
    emails_found := seeds.length
    threads_included := threadsIncluded expanded }

/-- RAGEngine.query_stream after the search call (rag_engine.py lines
193-220): the generation backend produces the fragment list chunks, each
yielded as a chunk event, then the single terminal sources event built
from the pre-expansion seeds is yielded. -/
def queryStream (chunks : List String) (seeds : List Email) : List StreamEvent :=
  chunks.map StreamEvent.chunk ++ [StreamEvent.sources (buildStreamSources seeds)]

/-- Thread status label of OllamaClient._format_email_context computed
from the latest record of a rendered thread (llm_client.py lines 112-120). -/
def formatterStatusOf (m : Meta) : String :=
  if m.direction = "sent" ∧ m.is_replied = false then "AWAITING RESPONSE (you sent last, no reply yet)"
  else if m.direction = "received" ∧ m.is_replied = false then "NEEDS YOUR ACTION (received, not replied)"
  else "COMPLETED"

/-- Thread status label the context formatter assigns to a rendered thread
group: sort by date and label from the last record. -/
def formatterThreadStatus (thread : List Email) : Option String :=
  (sortByKey (fun e => e.metadata.date) thread).getLast?.map (fun latest => formatterStatusOf latest.metadata)

/-- Thread status the open-item aggregator derives from the same records:
sort by date and apply the status derivation to the last record. -/
def aggThreadStatus (msgs : List Meta) : Option String :=
  (sortByKey (fun m => m.date) msgs).getLast?.map threadStatusOf

/-- Modelled from the spec: the correspondence between the three formatter
labels and the three aggregator status values, used to compare the two
status rules (spec section 4.6 names AWAITING RESPONSE, NEEDS YOUR ACTION
and COMPLETED as the rendered forms of the section 4.5 statuses). -/
def labelToStatus (label : String) : String :=
  if label = "AWAITING RESPONSE (you sent last, no reply yet)" then "awaiting_response"
  else if label = "NEEDS YOUR ACTION (received, not replied)" then "needs_action"
  else if label = "COMPLETED" then "completed"
  else label

/-! ## Generic lemmas about the stable sorts, the dedup fold and substring tests -/

theorem perm_insertByKey (key : α → String) (a : α) (l : List α) :
    (insertByKey key a l).Perm (a :: l) := by
  induction l with
  | nil => simp [insertByKey]
  | cons b bs ih =>
    simp only [insertByKey]
    split
    · exact ((ih.cons b).trans (List.Perm.swap a b bs)).symm.symm
    · exact List.Perm.refl _

theorem mem_insertByKey (key : α → String) (a x : α) (l : List α) :
    x ∈ insertByKey key a l ↔ x = a ∨ x ∈ l := by
  rw [(perm_insertByKey key a l).mem_iff, List.mem_cons]

theorem foldl_insertByKey_perm (key : α → String) :
    ∀ (l acc : List α), (l.foldl (fun acc a => insertByKey key a acc) acc).Perm (l ++ acc)
  | [], acc => by simp
  | a :: t, acc => by
    simpa using ((foldl_insertByKey_perm key t (insertByKey key a acc)).trans
      ((perm_insertByKey key a acc).append_left t)).trans List.perm_middle

theorem sortByKey_perm (key : α → String) (l : List α) : (sortByKey key l).Perm l := by
  simpa [sortByKey] using foldl_insertByKey_perm key l []

theorem mem_sortByKey (key : α → String) (x : α) (l : List α) :
    x ∈ sortByKey key l ↔ x ∈ l :=
  (sortByKey_perm key l).mem_iff

theorem pairwise_insertByKey (key : α → String) (a : α) (l : List α)
    (h : l.Pairwise (fun x y => key x ≤ key y)) :
    (insertByKey key a l).Pairwise (fun x y => key x ≤ key y) := by
  induction l with
  | nil => simp [insertByKey]
  | cons b bs ih =>
    rw [List.pairwise_cons] at h
    simp only [insertByKey]
    split
    · rename_i hba
      rw [List.pairwise_cons]
      refine ⟨fun x hx => ?_, ih h.2⟩
      rcases (mem_insertByKey key a x bs).1 hx with rfl | hx
      · exact hba
      · exact h.1 x hx
    · rename_i hba
      rw [List.pairwise_cons]
      have hab : key a ≤ key b := le_of_not_le hba
      refine ⟨fun x hx => ?_, List.pairwise_cons.2 h⟩
      rcases List.mem_cons.1 hx with rfl | hx
      · exact hab
      · exact hab.trans (h.1 x hx)

theorem sortByKey_pairwise (key : α → String) (l : List α) :
    (sortByKey key l).Pairwise (fun x y => key x ≤ key y) := by
  have main : ∀ (l acc : List α), acc.Pairwise (fun x y => key x ≤ key y) →
      (l.foldl (fun acc a => insertByKey key a acc) acc).Pairwise (fun x y => key x ≤ key y) := by
    intro l
    induction l with
    | nil => intro acc h; simpa using h
    | cons a t ih => intro acc h; exact ih _ (pairwise_insertByKey key a acc h)
  simpa [sortByKey] using main l [] (by simp)

theorem pairwise_getLast {P : α → α → Prop} :
    ∀ {l : List α} {m : α}, l.Pairwise P → l.getLast? = some m → ∀ z ∈ l, z = m ∨ P z m
  | [], _, _, hl, _, hz => by simp at hl
  | [a], m, hp, hl, z, hz => by
    simp only [List.getLast?_singleton, Option.some.injEq] at hl
    simp only [List.mem_singleton] at hz
    exact Or.inl (hz.trans hl)
  | a :: b :: t, m, hp, hl, z, hz => by
    rw [List.getLast?_cons_cons] at hl
    rw [List.pairwise_cons] at hp
    rcases List.mem_cons.1 hz with rfl | hz
    · have hm : m ∈ b :: t := by
        rcases List.mem_getLast?_eq_getLast (by rw [hl]; exact rfl) with ⟨h, rfl⟩
        exact List.getLast_mem h
      exact Or.inr (hp.1 m hm)
    · exact pairwise_getLast hp.2 hl z hz

theorem sortByKey_getLast_strictmax (key : α → String) (pre post : List α) (o : α)
    (hpre : ∀ x ∈ pre, key x < key o) (hpost : ∀ x ∈ post, key x < key o) :
    (sortByKey key (pre ++ o :: post)).getLast? = some o := by
  set l := pre ++ o :: post with hl
  have hperm := sortByKey_perm key l
  have hne : sortByKey key l ≠ [] := by
    intro h
    have := hperm.symm.mem_iff (a := o)
    rw [h] at this
    simp only [List.not_mem_nil, iff_false] at this
    exact this (by simp [hl])
  rcases hz : (sortByKey key l).getLast? with _ | z
  · exact absurd (List.getLast?_eq_none_iff.1 hz) hne
  have hzl : z ∈ l := hperm.mem_iff.1 (by
    rcases List.mem_getLast?_eq_getLast (by rw [hz]; exact rfl) with ⟨h, rfl⟩
    exact List.getLast_mem h)
  have hol : o ∈ sortByKey key l := hperm.mem_iff.2 (by simp [hl])
  have := pairwise_getLast (sortByKey_pairwise key l) hz o hol
  rcases this with rfl | hle
  · rfl
  rcases List.mem_append.1 (hl ▸ hzl) with hzpre | hzrest
  · exact absurd hle (not_le_of_lt (hpre z hzpre))
  rcases List.mem_cons.1 hzrest with rfl | hzpost
  · rfl
  · exact absurd hle (not_le_of_lt (hpost z hzpost))

theorem insertByKey_map (key : β → String) (f : α → β) (a : α) (l : List α) :
    insertByKey key (f a) (l.map f) = (insertByKey (fun x => key (f x)) a l).map f := by
  induction l with
  | nil => simp [insertByKey]
  | cons b bs ih =>
    simp only [List.map_cons, insertByKey]
    split
    · simp [ih]
    · simp

theorem sortByKey_map (key : β → String) (f : α → β) (l : List α) :
    sortByKey key (l.map f) = (sortByKey (fun x => key (f x)) l).map f := by
  have main : ∀ (l : List α) (acc : List α),
      (l.map f).foldl (fun acc a => insertByKey key a acc) (acc.map f)
        = (l.foldl (fun acc a => insertByKey (fun x => key (f x)) a acc) acc).map f := by
    intro l
    induction l with
    | nil => intro acc; simp
    | cons a t ih =>
      intro acc
      simp only [List.map_cons, List.foldl_cons]
      rw [insertByKey_map key f a acc, ih]
  simpa [sortByKey] using main l []

theorem perm_insertByKeyDesc (key : α → String) (a : α) (l : List α) :
    (insertByKeyDesc key a l).Perm (a :: l) := by
  induction l with
  | nil => simp [insertByKeyDesc]
  | cons b bs ih =>
    simp only [insertByKeyDesc]
    split
    · exact ((ih.cons b).trans (List.Perm.swap a b bs)).symm.symm
    · exact List.Perm.refl _

theorem sortByKeyDesc_perm (key : α → String) (l : List α) : (sortByKeyDesc key l).Perm l := by
  have main : ∀ (l acc : List α),
      (l.foldl (fun acc a => insertByKeyDesc key a acc) acc).Perm (l ++ acc) := by
    intro l
    induction l with
    | nil => intro acc; simp
    | cons a t ih =>
      intro acc
      simpa using ((ih (insertByKeyDesc key a acc)).trans
        ((perm_insertByKeyDesc key a acc).append_left t)).trans List.perm_middle
  simpa [sortByKeyDesc] using main l []

theorem mem_sortByKeyDesc (key : α → String) (x : α) (l : List α) :
    x ∈ sortByKeyDesc key l ↔ x ∈ l :=
  (sortByKeyDesc_perm key l).mem_iff

theorem mem_dedupFirstSeen_aux (l : List String) :
    ∀ (acc : List String) (x : String), (x ∈ acc ∨ x ∈ l) →
      x ∈ l.foldl (fun acc s => if s ∈ acc then acc else acc ++ [s]) acc := by
  induction l with
  | nil => intro acc x h; simpa using h.resolve_right (by simp)
  | cons s t ih =>
    intro acc x h
    simp only [List.foldl_cons]
    apply ih
    rcases h with hacc | hl
    · left; split <;> simp [hacc]
    · rcases List.mem_cons.1 hl with rfl | ht
      · left
        split
        · assumption
        · simp
      · right; exact ht

theorem mem_dedupFirstSeen_of_mem {l : List String} {x : String} (h : x ∈ l) :
    x ∈ dedupFirstSeen l :=
  mem_dedupFirstSeen_aux l [] x (Or.inr h)

theorem startsWithChars_append_left {xs ys l : List Char}
    (h : startsWithChars (xs ++ ys) l = true) : startsWithChars xs l = true := by
  induction xs generalizing l with
  | nil => rfl
  | cons a as ih =>
    cases l with
    | nil => simp [startsWithChars] at h
    | cons b bs =>
      simp only [List.cons_append, startsWithChars, Bool.and_eq_true] at h ⊢
      exact ⟨h.1, ih h.2⟩

theorem hasSubChars_append_left {xs ys l : List Char}
    (h : hasSubChars (xs ++ ys) l = true) : hasSubChars xs l = true := by
  induction l with
  | nil =>
    simp only [hasSubChars, List.isEmpty_iff, List.append_eq_nil] at h ⊢
    exact h.1
  | cons b bs ih =>
    simp only [hasSubChars, Bool.or_eq_true] at h ⊢
    rcases h with h | h
    · exact Or.inl (startsWithChars_append_left h)
    · exact Or.inr (ih h)

theorem startsWithChars_refl (l : List Char) : startsWithChars l l = true := by
  induction l with
  | nil => rfl
  | cons a as ih => simp [startsWithChars, ih]

theorem hasSubChars_of_suffix (p s : List Char) : hasSubChars s (p ++ s) = true := by
  induction p with
  | nil =>
    cases s with
    | nil => rfl
    | cons b bs => simp [hasSubChars, startsWithChars_refl]
  | cons a p ih =>
    simp only [List.cons_append, hasSubChars, Bool.or_eq_true]
    exact Or.inr ih

/-! ## Claim C10: the waiting phrase always triggers the action rule -/

/-- C10: any query whose lower-cased form contains the word waiting (and in
particular any query containing waiting for reply) is classified as
action_needed with the filter direction received and is_replied false, and
is never classified sent_followup, so the waiting for reply phrase of the
sent_followup rule is unreachable. -/
theorem C10_waiting_triggers_action (query : String) :
    (strIn "waiting" (pyLower query) = true →
      detectQueryType query =
        ⟨"action_needed", [("direction", Val.s "received"), ("is_replied", Val.b false)]⟩)
    ∧ (strIn "waiting for reply" (pyLower query) = true →
      detectQueryType query =
        ⟨"action_needed", [("direction", Val.s "received"), ("is_replied", Val.b false)]⟩
      ∧ (detectQueryType query).type ≠ "sent_followup") := by
  have main : strIn "waiting" (pyLower query) = true →
      detectQueryType query =
        ⟨"action_needed", [("direction", Val.s "received"), ("is_replied", Val.b false)]⟩ := by
    intro h
    have hany : (["action", "todo", "to-do", "need to", "should", "must", "pending",
        "waiting"].any (fun w => strIn w (pyLower query))) = true :=
      List.any_eq_true.2 ⟨"waiting", by simp, h⟩
    simp only [detectQueryType, hany, if_true]
  refine ⟨main, fun h => ?_⟩
  have hwait : strIn "waiting" (pyLower query) = true := by
    have hd : ("waiting for reply").data = ("waiting").data ++ (" for reply").data := by decide
    unfold strIn at h ⊢
    rw [hd] at h
    exact hasSubChars_append_left h
  refine ⟨main hwait, ?_⟩
  rw [main hwait]
  decide

/-- Witness for C10 at the concrete query waiting for reply. -/
theorem C10_waiting_triggers_action_witness :
    detectQueryType "waiting for reply" =
      ⟨"action_needed", [("direction", Val.s "received"), ("is_replied", Val.b false)]⟩
    ∧ (detectQueryType "waiting for reply").type ≠ "sent_followup" :=
  (C10_waiting_triggers_action "waiting for reply").2 (by decide)

/-! ## Claim C4: the no-filter fallback of the search -/

/-- C4: when a non-empty filter is supplied and the filtered index query
returns zero hits, the identical query is reissued exactly once with no
filter (the call trace is the filter followed by none and the surfaced
hits are the unfiltered ones); when the filtered query returns a hit or no
filter was supplied, no retry occurs; consequently the search never
surfaces an empty result while unfiltered data exists. -/
theorem C4_search_fallback {φ : Type} (queryFn : Option φ → List RawHit) (w : Option φ) :
    (∀ wf, w = some wf → queryFn w = [] →
      (vsSearch queryFn w).1 = [some wf, none]
        ∧ (vsSearch queryFn w).2 = (queryFn none).map formatHit)
    ∧ (queryFn w ≠ [] → (vsSearch queryFn w).1 = [w])
    ∧ (w = none → (vsSearch queryFn w).1 = [none])
    ∧ (queryFn none ≠ [] → (vsSearch queryFn w).2 ≠ []) := by
  refine ⟨?_, ?_, ?_, ?_⟩
  · rintro wf rfl hempty
    simp [vsSearch, hempty]
  · intro hne
    cases w with
    | none => rfl
    | some wf =>
      have hfe : (queryFn (some wf)).isEmpty = false := by
        simpa [List.isEmpty_iff] using hne
      simp [vsSearch, hfe]
  · rintro rfl
    rfl
  · intro hne
    cases w with
    | none =>
      simp only [vsSearch]
      simpa using hne
    | some wf =>
      simp only [vsSearch]
      split
      · simpa using hne
      · rename_i hfe
        intro hc
        rw [List.map_eq_nil_iff] at hc
        rw [hc] at hfe
        simp at hfe

/-- Witness for C4: a filter function that is empty when filtered and
non-empty unfiltered triggers exactly one retry and surfaces hits. -/
theorem C4_search_fallback_witness :
    (vsSearch (fun o : Option String =>
        match o with | some _ => ([] : List RawHit) | none => [{id := "a"}]) (some "f")).1
      = [some "f", none]
    ∧ (vsSearch (fun o : Option String =>
        match o with | some _ => ([] : List RawHit) | none => [{id := "a"}]) (some "f")).2 ≠ [] := by
  have h := C4_search_fallback (fun o : Option String =>
    match o with | some _ => ([] : List RawHit) | none => [{id := "a"}]) (some "f")
  exact ⟨(h.1 "f" rfl rfl).1, h.2.2.2 (by simp)⟩

/-! ## Claim C5: generation backend faults are contained by the blocking query -/

/-- C5: when the generation backend raises, RAGEngine.query does not
propagate the fault: the answer is the error string containing the failure
reason, and the sources, query_type, emails_found and threads_included
fields equal those of the success case on the same seeds. -/
theorem C5_llm_fault_contained (q : String) (seeds store : List Email) (msg a : String) :
    (ragQuery q seeds store (Except.error msg)).answer = "Error generating response: " ++ msg
    ∧ strIn msg (ragQuery q seeds store (Except.error msg)).answer = true
    ∧ (ragQuery q seeds store (Except.error msg)).sources
        = (ragQuery q seeds store (Except.ok a)).sources
    ∧ (ragQuery q seeds store (Except.error msg)).query_type
        = (ragQuery q seeds store (Except.ok a)).query_type
    ∧ (ragQuery q seeds store (Except.error msg)).emails_found
        = (ragQuery q seeds store (Except.ok a)).emails_found
    ∧ (ragQuery q seeds store (Except.error msg)).threads_included
        = (ragQuery q seeds store (Except.ok a)).threads_included := by
  refine ⟨rfl, ?_, rfl, rfl, rfl, rfl⟩
  show strIn msg ("Error generating response: " ++ msg) = true
  unfold strIn
  rw [String.data_append]
  exact hasSubChars_of_suffix _ _

/-! ## Claim C6: the terminal citation event of the streaming path -/

/-- Counterexample for C6: at a concrete seed hit the terminal sources
event of the streaming path does not equal the blocking citation list,
because the streaming citations carry no relevance entry. -/
theorem C6_stream_sources_counterexample :
    ¬ (queryStream ["a"] [{}] =
        (["a"].map StreamEvent.chunk) ++ [StreamEvent.sources (buildSources [{}])]) := by
  decide

/-- C6 amended: after the fragments, exactly one terminal sources event is
emitted, whose citation list is built from the first ten pre-expansion
seed hits with the sender, subject, date and conversation_id of the
blocking citations, but with the relevance entry removed. -/
theorem C6_stream_terminal_amended (chunks : List String) (seeds : List Email) :
    queryStream chunks seeds =
      chunks.map StreamEvent.chunk ++
        [StreamEvent.sources ((buildSources seeds).map
          (fun kvs => kvs.filter (fun kv => kv.1 ≠ "relevance")))] := by
  have hfe : streamSource = fun e => (blockingSource e).filter (fun kv => kv.1 ≠ "relevance") :=
    funext (fun e => rfl)
  simp only [queryStream, buildStreamSources, buildSources, List.map_map, hfe]
  rfl

/-! ## Claim C7: the last week range spills past the prior Sunday -/

/-- C7, evaluated at the failing input: with now on a Wednesday at 15:30
(second 833400 of the Monday-aligned calendar), the query last week yields
the range from second 0 (midnight of the prior Monday) to second 660540,
which lies at or beyond second 604800, the first second of the current
week; the claim and the spec require the range to end within the prior
Sunday, before second 604800. -/
theorem C7_last_week_bug :
    parseTimeRef "last week" 833400 = Except.ok (some (0, 660540))
    ∧ 7 * daySec ≤ 660540 := by
  exact ⟨rfl, by decide⟩

/-! ## Claim C8: totality of the time range extractor -/

/-- Counterexample for C8: a day count beyond the timedelta bound makes
the extractor raise OverflowError instead of returning a range or none,
so the extractor is not total on arbitrarily large numeric captures. -/
theorem C8_overflow_counterexample :
    parseTimeRef "last 1000000000 days" 0 = Except.error "OverflowError" := rfl

/-- C8 amended: the extractor returns a range or none and never raises on
every query whose numeric capture, if any, is at most 999999999 days and
reaches no earlier than the minimum datetime, for every clock value at
least 14 days into the calendar; captures beyond those bounds raise
OverflowError rather than being treated as no match. -/
theorem C8_total_amended (q : String) (now : Nat)
    (hnow : 14 * daySec ≤ now) (hcap : captureOk q now = true) :
    ∃ r, parseTimeRef q now = Except.ok r := by
  unfold parseTimeRef
  by_cases h1 : hasSubChars "today".data ((pyLower q).data) = true
  · rw [if_pos h1]; exact ⟨_, rfl⟩
  rw [if_neg h1]
  by_cases h2 : hasSubChars "yesterday".data ((pyLower q).data) = true
  · rw [if_pos h2, if_neg (by simp only [daySec] at hnow ⊢; omega)]
    exact ⟨_, rfl⟩
  rw [if_neg h2]
  by_cases h3 : hasSubChars "this week".data ((pyLower q).data) = true
  · rw [if_pos h3]; exact ⟨_, rfl⟩
  rw [if_neg h3]
  by_cases h4 : hasSubChars "last week".data ((pyLower q).data) = true
  · rw [if_pos h4, if_neg (by simp only [daySec] at hnow ⊢; omega)]
    exact ⟨_, rfl⟩
  rw [if_neg h4]
  rcases hf : findDaysCapture ((pyLower q).data) with _ | ds
  · exact ⟨_, rfl⟩
  · unfold captureOk at hcap
    rw [hf] at hcap
    simp only [Bool.and_eq_true, decide_eq_true_eq] at hcap
    refine ⟨some (now - digitsToNat ds * daySec, now), ?_⟩
    show (if 999999999 < digitsToNat ds then Except.error "OverflowError"
      else if now < digitsToNat ds * daySec then Except.error "OverflowError"
      else Except.ok (some (now - digitsToNat ds * daySec, now))) = _
    rw [if_neg (Nat.not_lt.2 hcap.1), if_neg (Nat.not_lt.2 hcap.2)]

/-- Witness for C8 amended at a concrete in-bounds query and clock. -/
theorem C8_total_amended_witness :
    ∃ r, parseTimeRef "last 3 days" (14 * daySec) = Except.ok r :=
  C8_total_amended "last 3 days" (14 * daySec) (le_refl _) (by decide)

/-! ## Claim C9: the 5000 record cap of the open-item scan -/

/-- C9: get_open_items aggregates exactly the whole population when it
holds at most 5000 records; for larger populations it aggregates exactly
the first 5000 fetched records, so records beyond the first 5000 never
contribute to any thread status, message count, participant set or
standalone item of the output. -/
theorem C9_population_cap (store : List Meta) :
    (store.length ≤ 5000 → get_open_items store = aggregateOpenItems store)
    ∧ (5000 ≤ store.length → get_open_items store = aggregateOpenItems (store.take 5000))
    ∧ (store.length = 5000 → ∀ extra : List Meta,
        get_open_items (store ++ extra) = get_open_items store) := by
  have part1 : store.length ≤ 5000 → get_open_items store = aggregateOpenItems store := by
    intro h
    unfold get_open_items
    by_cases h0 : store.length = 0
    · rw [if_pos h0, List.length_eq_zero.1 h0]
      rfl
    · rw [if_neg h0, Nat.min_eq_left h, List.take_length]
  have part2 : 5000 ≤ store.length →
      get_open_items store = aggregateOpenItems (store.take 5000) := by
    intro h
    unfold get_open_items
    rw [if_neg (by omega), Nat.min_eq_right h]
  refine ⟨part1, part2, ?_⟩
  intro h extra
  have hlen : 5000 ≤ (store ++ extra).length := by
    rw [List.length_append, h]; omega
  unfold get_open_items
  rw [if_neg (by rw [List.length_append, h]; omega), if_neg (by omega),
    Nat.min_eq_right hlen, Nat.min_eq_right (le_of_eq h.symm)]
  congr 1
  rw [← h, List.take_left]
  exact (List.take_length store).symm

/-- Witness for C9: a singleton population is aggregated whole, and at an
exactly-5000-record population appended records change nothing. -/
theorem C9_population_cap_witness :
    get_open_items [({conversation_id := "C", direction := "sent", date := "1"} : Meta)]
      = aggregateOpenItems [({conversation_id := "C", direction := "sent", date := "1"} : Meta)]
    ∧ get_open_items (List.replicate 5000 ({} : Meta) ++ [({direction := "received"} : Meta)])
      = get_open_items (List.replicate 5000 ({} : Meta)) :=
  ⟨(C9_population_cap _).1 (by simp),
   (C9_population_cap (List.replicate 5000 ({} : Meta))).2.2 (List.length_replicate 5000 _) _⟩

/-! ## Claim C1: the thread status depends only on the latest record -/

theorem threadItem_conversation_id {results : List Meta} {c : String} {item : OpenItem}
    (h : threadItem results c = some item) : item.conversation_id = c := by
  simp only [threadItem] at h
  rcases hl : (sortByKey (fun m => m.date) (results.filter (fun m => m.conversation_id = c))).getLast? with _ | latest
  · simp only [hl] at h
    exact Option.noConfusion h
  · simp only [hl] at h
    by_cases hc : threadStatusOf latest = "completed"
    · rw [if_pos hc] at h; simp at h
    · rw [if_neg hc] at h
      cases h
      rfl

theorem threadItem_status {results : List Meta} {c : String} {item : OpenItem}
    (h : threadItem results c = some item) :
    ∃ latest, (sortByKey (fun m => m.date) (results.filter (fun m => m.conversation_id = c))).getLast? = some latest
      ∧ item.status = threadStatusOf latest := by
  simp only [threadItem] at h
  rcases hl : (sortByKey (fun m => m.date) (results.filter (fun m => m.conversation_id = c))).getLast? with _ | latest
  · simp only [hl] at h
    exact Option.noConfusion h
  · simp only [hl] at h
    by_cases hc : threadStatusOf latest = "completed"
    · rw [if_pos hc] at h; simp at h
    · rw [if_neg hc] at h
      cases h
      exact ⟨latest, hl, rfl⟩

theorem threadItem_of_latest {results : List Meta} {c : String} {latest : Meta}
    (hl : (sortByKey (fun m => m.date) (results.filter (fun m => m.conversation_id = c))).getLast? = some latest)
    (hnc : threadStatusOf latest ≠ "completed") :
    ∃ item, threadItem results c = some item
      ∧ item.conversation_id = c ∧ item.status = threadStatusOf latest := by
  simp only [threadItem, hl, if_neg hnc]
  exact ⟨_, rfl, rfl, rfl⟩

theorem threadItem_completed {results : List Meta} {c : String} {latest : Meta}
    (hl : (sortByKey (fun m => m.date) (results.filter (fun m => m.conversation_id = c))).getLast? = some latest)
    (hc : threadStatusOf latest = "completed") :
    threadItem results c = none := by
  simp only [threadItem, hl, if_pos hc]

theorem mem_aggregateOpenItems {results : List Meta} {item : OpenItem} :
    item ∈ aggregateOpenItems results ↔
      (∃ c ∈ firstSeenConvIds results, threadItem results c = some item)
      ∨ (∃ m ∈ results, (m.conversation_id = "" ∧ m.direction = "received" ∧ m.is_replied = false)
          ∧ standaloneItem m = item) := by
  simp only [aggregateOpenItems]
  rw [mem_sortByKeyDesc]
  simp only [List.mem_append, List.mem_filterMap, List.mem_map, List.mem_filter,
    decide_eq_true_eq]
  constructor
  · rintro (⟨c, hc, hti⟩ | ⟨m, ⟨hm, hprop⟩, heq⟩)
    · exact Or.inl ⟨c, hc, hti⟩
    · exact Or.inr ⟨m, hm, hprop, heq⟩
  · rintro (⟨c, hc, hti⟩ | ⟨m, hm, hprop, heq⟩)
    · exact Or.inl ⟨c, hc, hti⟩
    · exact Or.inr ⟨m, ⟨hm, hprop⟩, heq⟩

/-- C1: for every record population and every non-empty conversation id,
decompose the thread records (in fetch order) around the unique record
with the maximal timestamp string; then the status of the thread in the
open-item aggregation is exactly the status derivation applied to that
record, whatever the direction and reply flags of the other records are:
a received unreplied oracle puts the thread in the output as needs_action,
a sent oracle (replied or not) as awaiting_response, and a received
replied oracle excludes the thread from the output. -/
theorem C1_thread_status_oracle (results : List Meta) (c : String) (pre post : List Meta)
    (oracle : Meta) (hc : c ≠ "")
    (hdec : results.filter (fun m => m.conversation_id = c) = pre ++ oracle :: post)
    (hpre : ∀ x ∈ pre, x.date < oracle.date)
    (hpost : ∀ x ∈ post, x.date < oracle.date) :
    (∀ item ∈ aggregateOpenItems results, item.conversation_id = c →
        item.status = threadStatusOf oracle)
    ∧ (oracle.direction = "received" → oracle.is_replied = false →
        ∃ item ∈ aggregateOpenItems results,
          item.conversation_id = c ∧ item.status = "needs_action")
    ∧ (oracle.direction = "sent" →
        ∃ item ∈ aggregateOpenItems results,
          item.conversation_id = c ∧ item.status = "awaiting_response")
    ∧ (oracle.direction = "received" → oracle.is_replied = true →
        ∀ item ∈ aggregateOpenItems results, item.conversation_id ≠ c) := by
  have hlast : (sortByKey (fun m => m.date)
      (results.filter (fun m => m.conversation_id = c))).getLast? = some oracle := by
    rw [hdec]
    exact sortByKey_getLast_strictmax _ pre post oracle hpre hpost
  have horacle_mem : oracle ∈ results.filter (fun m => m.conversation_id = c) := by
    rw [hdec]
    exact List.mem_append_right _ (List.mem_cons_self _ _)
  have horacle_res : oracle ∈ results ∧ oracle.conversation_id = c := by
    have h := List.mem_filter.1 horacle_mem
    simpa using h
  have hcmem : c ∈ firstSeenConvIds results := by
    unfold firstSeenConvIds
    apply mem_dedupFirstSeen_of_mem
    rw [List.mem_filter]
    refine ⟨List.mem_map.2 ⟨oracle, horacle_res.1, horacle_res.2⟩, by simpa using hc⟩
  have conj1 : ∀ item ∈ aggregateOpenItems results, item.conversation_id = c →
      item.status = threadStatusOf oracle := by
    intro item hitem hrc
    rcases mem_aggregateOpenItems.1 hitem with ⟨c', _, hti⟩ | ⟨m, _, _, hsa⟩
    · have hcc : c' = c := by rw [← hrc, threadItem_conversation_id hti]
      subst hcc
      rcases threadItem_status hti with ⟨latest, hl2, hstat⟩
      have : latest = oracle := Option.some.inj (hl2.symm.trans hlast)
      rw [hstat, this]
    · have hsi : item.conversation_id = "" := by rw [← hsa]; rfl
      exact absurd (hrc.symm.trans hsi) hc
  have mk : threadStatusOf oracle ≠ "completed" →
      ∃ item ∈ aggregateOpenItems results,
        item.conversation_id = c ∧ item.status = threadStatusOf oracle := by
    intro hnc
    rcases threadItem_of_latest hlast hnc with ⟨item, hti, hic, hst⟩
    exact ⟨item, mem_aggregateOpenItems.2 (Or.inl ⟨c, hcmem, hti⟩), hic, hst⟩
  refine ⟨conj1, ?_, ?_, ?_⟩
  · intro h1 h2
    have hs : threadStatusOf oracle = "needs_action" := by
      unfold threadStatusOf
      rw [if_pos ⟨h1, h2⟩]
    rcases mk (by rw [hs]; decide) with ⟨item, hmem, hic, hst⟩
    exact ⟨item, hmem, hic, by rw [hst, hs]⟩
  · intro h1
    have hs : threadStatusOf oracle = "awaiting_response" := by
      unfold threadStatusOf
      rw [if_neg (by simp [h1]), if_pos h1]
    rcases mk (by rw [hs]; decide) with ⟨item, hmem, hic, hst⟩
    exact ⟨item, hmem, hic, by rw [hst, hs]⟩
  · intro h1 h2
    have hs : threadStatusOf oracle = "completed" := by
      unfold threadStatusOf
      rw [if_neg (by simp [h2]), if_neg (by simp [h1]), if_pos ⟨h1, h2⟩]
    have hnone : threadItem results c = none := threadItem_completed hlast hs
    intro item hitem hrc
    rcases mem_aggregateOpenItems.1 hitem with ⟨c', _, hti⟩ | ⟨m, _, _, hsa⟩
    · have hcc : c' = c := by rw [← hrc, threadItem_conversation_id hti]
      subst hcc
      rw [hnone] at hti
      simp at hti
    · have hsi : item.conversation_id = "" := by rw [← hsa]; rfl
      exact absurd (hrc.symm.trans hsi) hc

/-- Witness for C1, the scenario of the spec: three records T1 < T2 < T3
where T3 is sent and not replied give the thread status awaiting_response
even though T1 is received and unreplied. -/
theorem C1_thread_status_oracle_witness :
    ∃ item ∈ aggregateOpenItems
        [({conversation_id := "C", direction := "received", date := "2024-01-01"} : Meta),
         ({conversation_id := "C", direction := "received", is_replied := true, date := "2024-01-02"} : Meta),
         ({conversation_id := "C", direction := "sent", date := "2024-01-03"} : Meta)],
      item.conversation_id = "C" ∧ item.status = "awaiting_response" :=
  (C1_thread_status_oracle
    [({conversation_id := "C", direction := "received", date := "2024-01-01"} : Meta),
     ({conversation_id := "C", direction := "received", is_replied := true, date := "2024-01-02"} : Meta),
     ({conversation_id := "C", direction := "sent", date := "2024-01-03"} : Meta)]
    "C"
    [({conversation_id := "C", direction := "received", date := "2024-01-01"} : Meta),
     ({conversation_id := "C", direction := "received", is_replied := true, date := "2024-01-02"} : Meta)]
    []
    ({conversation_id := "C", direction := "sent", date := "2024-01-03"} : Meta)
    (by decide) (by decide)
    (by intro x hx; rw [String.lt_iff_toList_lt]; fin_cases hx <;> decide)
    (by intro x hx; exact absurd hx (List.not_mem_nil x))).2.2.1 rfl

/-! ## Claim C3: formatter status label versus aggregator status -/

/-- Pointwise comparison of the two status rules: they agree on every
latest record that is not both sent and replied. -/
theorem label_formatter_agrees (m : Meta)
    (h : ¬(m.direction = "sent" ∧ m.is_replied = true)) :
    labelToStatus (formatterStatusOf m) = threadStatusOf m := by
  cases hr : m.is_replied
  · by_cases hd : m.direction = "sent"
    · simp [formatterStatusOf, threadStatusOf, labelToStatus, hd, hr]
    · by_cases hd2 : m.direction = "received"
      · simp [formatterStatusOf, threadStatusOf, labelToStatus, hd, hd2, hr]
      · simp [formatterStatusOf, threadStatusOf, labelToStatus, hd, hd2, hr]
  · by_cases hd : m.direction = "sent"
    · exact absurd ⟨hd, hr⟩ h
    · by_cases hd2 : m.direction = "received"
      · simp [formatterStatusOf, threadStatusOf, labelToStatus, hd, hd2, hr]
      · simp [formatterStatusOf, threadStatusOf, labelToStatus, hd, hd2, hr]

/-- Counterexample for C3: on a thread whose last record is sent and
replied, the context formatter labels the thread COMPLETED while the
open-item aggregator derives awaiting_response, so the formatter does not
apply the same oracle rule as the aggregator. -/
theorem C3_formatter_aggregator_counterexample :
    ¬ ((formatterThreadStatus
          [({metadata := {direction := "sent", is_replied := true, date := "d"}} : Email)]).map
            labelToStatus
        = aggThreadStatus
            ([({metadata := {direction := "sent", is_replied := true, date := "d"}} : Email)].map
              (fun e => e.metadata))) := by
  decide

/-- C3 amended: the status label the context formatter assigns to a thread
group equals (under the label correspondence) the status the open-item
aggregator derives from the same records, whenever the maximum-timestamp
record is not both sent and replied; on a sent and replied last record the
formatter says COMPLETED while the aggregator says awaiting_response. -/
theorem C3_formatter_matches_aggregator (thread : List Email) (latest : Email)
    (hl : (sortByKey (fun e => e.metadata.date) thread).getLast? = some latest)
    (h : ¬(latest.metadata.direction = "sent" ∧ latest.metadata.is_replied = true)) :
    (formatterThreadStatus thread).map labelToStatus
      = aggThreadStatus (thread.map (fun e => e.metadata)) := by
  have hmap := sortByKey_map (fun m : Meta => m.date) (fun e : Email => e.metadata) thread
  unfold formatterThreadStatus aggThreadStatus
  rw [hmap, List.getLast?_map]
  simp only [hl, Option.map_some', Option.map_map, Function.comp]
  rw [label_formatter_agrees latest.metadata h]

/-- Witness for C3 amended at a thread whose last record is sent and not
replied: both rules yield the awaiting status. -/
theorem C3_formatter_matches_aggregator_witness :
    (formatterThreadStatus [({metadata := {direction := "sent", date := "d"}} : Email)]).map
        labelToStatus
      = aggThreadStatus ([({metadata := {direction := "sent", date := "d"}} : Email)].map
          (fun e => e.metadata)) :=
  C3_formatter_matches_aggregator [({metadata := {direction := "sent", date := "d"}} : Email)]
    ({metadata := {direction := "sent", date := "d"}} : Email) rfl (by decide)

/-! ## Claim C2: the thread expansion working set -/

theorem addThread_seen_mono (st : ExpState) (te : Email) : st.seen ⊆ (addThread st te).seen := by
  unfold addThread
  split
  · exact fun _ h => h
  · exact fun _ h => List.mem_cons_of_mem _ h

theorem addThread_seenConvs (st : ExpState) (te : Email) :
    (addThread st te).seenConvs = st.seenConvs := by
  unfold addThread
  split <;> rfl

theorem addThread_covers (st : ExpState) (te : Email) : te.id ∈ (addThread st te).seen := by
  unfold addThread
  split
  · assumption
  · exact List.mem_cons_self _ _

theorem foldl_addThread_seen_mono :
    ∀ (l : List Email) (st : ExpState), st.seen ⊆ (l.foldl addThread st).seen := by
  intro l
  induction l with
  | nil => intro st; exact fun _ h => h
  | cons te t ih =>
    intro st
    exact fun _ h => ih (addThread st te) (addThread_seen_mono st te h)

theorem foldl_addThread_seenConvs :
    ∀ (l : List Email) (st : ExpState), (l.foldl addThread st).seenConvs = st.seenConvs
  | [], _ => rfl
  | te :: t, st => by
    rw [List.foldl_cons, foldl_addThread_seenConvs t (addThread st te), addThread_seenConvs]

theorem foldl_addThread_covers :
    ∀ (l : List Email) (st : ExpState), ∀ te ∈ l, te.id ∈ (l.foldl addThread st).seen := by
  intro l
  induction l with
  | nil => intro st te h; exact absurd h (List.not_mem_nil te)
  | cons b t ih =>
    intro st te h
    rcases List.mem_cons.1 h with rfl | ht
    · exact foldl_addThread_seen_mono t (addThread st te) (addThread_covers st te)
    · exact ih (addThread st b) te ht

theorem foldl_addThread_new_seen :
    ∀ (l : List Email) (st : ExpState) (a : String), a ∈ (l.foldl addThread st).seen →
      a ∈ st.seen ∨ ∃ te ∈ l, te.id = a := by
  intro l
  induction l with
  | nil => intro st a h; exact Or.inl h
  | cons b t ih =>
    intro st a h
    rcases ih (addThread st b) a h with hb | ⟨te, hte, rfl⟩
    · unfold addThread at hb
      split at hb
      · exact Or.inl hb
      · rcases List.mem_cons.1 hb with rfl | hb
        · exact Or.inr ⟨b, List.mem_cons_self _ _, rfl⟩
        · exact Or.inl hb
    · exact Or.inr ⟨te, List.mem_cons_of_mem _ hte, rfl⟩

theorem addThread_mid {st : ExpState} {x : String} (te : Email) (h : MidInv st x) :
    MidInv (addThread st te) x := by
  unfold addThread
  split
  · exact h
  · rename_i hnew
    have hn_ids : te.id ∉ idsOf st.expanded := fun hin => hnew ((h.seen_eq te.id).2 (Or.inr hin))
    have hx_seen : x ∈ st.seen := (h.seen_eq x).2 (Or.inl rfl)
    have hxne : x ≠ te.id := fun he => hnew (he ▸ hx_seen)
    refine ⟨?_, ?_, ?_⟩
    · intro a
      show a ∈ te.id :: st.seen ↔ a = x ∨ a ∈ idsOf (st.expanded ++ [te])
      simp only [idsOf, List.map_append, List.map_cons, List.map_nil, List.mem_append,
        List.mem_cons, List.mem_singleton, List.not_mem_nil, or_false]
      rw [h.seen_eq a]
      show a = te.id ∨ a = x ∨ a ∈ idsOf st.expanded ↔ a = x ∨ a ∈ idsOf st.expanded ∨ a = te.id
      tauto
    · show (idsOf (st.expanded ++ [te])).Nodup
      simp only [idsOf, List.map_append, List.map_cons, List.map_nil]
      rw [List.nodup_append]
      exact ⟨h.nodup, List.nodup_singleton _, by simpa [idsOf] using hn_ids⟩
    · show x ∉ idsOf (st.expanded ++ [te])
      simp only [idsOf, List.map_append, List.map_cons, List.map_nil, List.mem_append,
        List.mem_singleton, List.not_mem_nil, or_false]
      rintro (hx | hx)
      · exact h.x_not hx
      · exact hxne hx

theorem foldl_addThread_mid :
    ∀ (l : List Email) (st : ExpState) (x : String), MidInv st x →
      MidInv (l.foldl addThread st) x := by
  intro l
  induction l with
  | nil => intro st x h; exact h
  | cons b t ih => intro st x h; exact ih (addThread st b) x (addThread_mid b h)

theorem expandStep_eq_skip (f : String → List Email) (st : ExpState) (e : Email)
    (hskip : e.id ∈ st.seen) : expandStep f st e = st := by
  simp [expandStep, hskip]

theorem expandStep_eq_thread (f : String → List Email) (st : ExpState) (e : Email)
    (hskip : e.id ∉ st.seen) (hcv : emailConv e ≠ "" ∧ emailConv e ∉ st.seenConvs) :
    expandStep f st e =
      (if e.id ∈ idsOf ((f (emailConv e)).foldl addThread
            ⟨e.id :: st.seen, emailConv e :: st.seenConvs, st.expanded⟩).expanded
       then (f (emailConv e)).foldl addThread
            ⟨e.id :: st.seen, emailConv e :: st.seenConvs, st.expanded⟩
       else ⟨((f (emailConv e)).foldl addThread
              ⟨e.id :: st.seen, emailConv e :: st.seenConvs, st.expanded⟩).seen,
             ((f (emailConv e)).foldl addThread
              ⟨e.id :: st.seen, emailConv e :: st.seenConvs, st.expanded⟩).seenConvs,
             ((f (emailConv e)).foldl addThread
              ⟨e.id :: st.seen, emailConv e :: st.seenConvs, st.expanded⟩).expanded ++ [e]⟩) := by
  simp [expandStep, hskip, hcv]

theorem expandStep_eq_plain (f : String → List Email) (st : ExpState) (e : Email)
    (hskip : e.id ∉ st.seen) (hcv : ¬(emailConv e ≠ "" ∧ emailConv e ∉ st.seenConvs)) :
    expandStep f st e = ⟨e.id :: st.seen, st.seenConvs, st.expanded ++ [e]⟩ := by
  simp only [expandStep, if_neg hskip, if_neg hcv]

theorem expandStep_seen_mono (f : String → List Email) (st : ExpState) (e : Email) :
    st.seen ⊆ (expandStep f st e).seen := by
  by_cases hskip : e.id ∈ st.seen
  · rw [expandStep_eq_skip f st e hskip]
    exact fun _ h => h
  · by_cases hcv : emailConv e ≠ "" ∧ emailConv e ∉ st.seenConvs
    · rw [expandStep_eq_thread f st e hskip hcv]
      split
      · exact fun _ h =>
          foldl_addThread_seen_mono _ _ (List.mem_cons_of_mem _ h)
      · exact fun _ h =>
          foldl_addThread_seen_mono _ _ (List.mem_cons_of_mem _ h)
    · rw [expandStep_eq_plain f st e hskip hcv]
      exact fun _ h => List.mem_cons_of_mem _ h

theorem expandStep_self_seen (f : String → List Email) (st : ExpState) (e : Email) :
    e.id ∈ (expandStep f st e).seen := by
  by_cases hskip : e.id ∈ st.seen
  · rw [expandStep_eq_skip f st e hskip]; exact hskip
  · by_cases hcv : emailConv e ≠ "" ∧ emailConv e ∉ st.seenConvs
    · rw [expandStep_eq_thread f st e hskip hcv]
      split
      · exact foldl_addThread_seen_mono _ _ (List.mem_cons_self _ _)
      · exact foldl_addThread_seen_mono _ _ (List.mem_cons_self _ _)
    · rw [expandStep_eq_plain f st e hskip hcv]
      exact List.mem_cons_self _ _

theorem expandStep_convs_mono (f : String → List Email) (st : ExpState) (e : Email) :
    st.seenConvs ⊆ (expandStep f st e).seenConvs := by
  by_cases hskip : e.id ∈ st.seen
  · rw [expandStep_eq_skip f st e hskip]
    exact fun _ h => h
  · by_cases hcv : emailConv e ≠ "" ∧ emailConv e ∉ st.seenConvs
    · rw [expandStep_eq_thread f st e hskip hcv]
      split
      · intro a h
        rw [foldl_addThread_seenConvs]
        exact List.mem_cons_of_mem _ h
      · intro a h
        show a ∈ ((f (emailConv e)).foldl addThread _).seenConvs
        rw [foldl_addThread_seenConvs]
        exact List.mem_cons_of_mem _ h
    · rw [expandStep_eq_plain f st e hskip hcv]
      exact fun _ h => h

theorem expandStep_inv (f : String → List Email) (seeds : List Email) (st : ExpState)
    (e : Email) (he : e ∈ seeds) (h : ExpInv f seeds st) :
    ExpInv f seeds (expandStep f st e) := by
  by_cases hskip : e.id ∈ st.seen
  · rw [expandStep_eq_skip f st e hskip]
    exact h
  have hnotid : e.id ∉ idsOf st.expanded := fun hin => hskip ((h.seen_eq _).2 hin)
  by_cases hcv : emailConv e ≠ "" ∧ emailConv e ∉ st.seenConvs
  · have heq := expandStep_eq_thread f st e hskip hcv
    set st2 : ExpState := ⟨e.id :: st.seen, emailConv e :: st.seenConvs, st.expanded⟩ with hst2
    set st3 := (f (emailConv e)).foldl addThread st2 with hst3
    have mid2 : MidInv st2 e.id := by
      refine ⟨?_, h.nodup, hnotid⟩
      intro a
      show a ∈ e.id :: st.seen ↔ _
      rw [List.mem_cons, h.seen_eq a]
    have mid3 : MidInv st3 e.id := foldl_addThread_mid _ _ _ mid2
    have hconvs3 : st3.seenConvs = emailConv e :: st.seenConvs := by
      rw [hst3, foldl_addThread_seenConvs]
    have hseen23 : st2.seen ⊆ st3.seen := by
      rw [hst3]; exact foldl_addThread_seen_mono _ _
    rw [heq, if_neg mid3.x_not]
    refine ⟨?_, ?_, ?_, ?_⟩
    · intro a
      show a ∈ st3.seen ↔ a ∈ idsOf (st3.expanded ++ [e])
      rw [mid3.seen_eq a]
      simp only [idsOf, List.map_append, List.map_cons, List.map_nil, List.mem_append,
        List.mem_singleton]
      constructor
      · rintro (rfl | hin)
        · exact Or.inr rfl
        · exact Or.inl hin
      · rintro (hin | rfl)
        · exact Or.inr hin
        · exact Or.inl rfl
    · show (idsOf (st3.expanded ++ [e])).Nodup
      simp only [idsOf, List.map_append, List.map_cons, List.map_nil]
      rw [List.nodup_append]
      refine ⟨mid3.nodup, List.nodup_singleton _, ?_⟩
      intro a ha hb
      rcases List.mem_cons.1 hb with rfl | hb
      · exact mid3.x_not ha
      · exact absurd hb (List.not_mem_nil a)
    · intro c hc te hte
      show te.id ∈ st3.seen
      rw [hconvs3] at hc
      rcases List.mem_cons.1 hc with rfl | hc
      · rw [hst3]; exact foldl_addThread_covers _ _ te hte
      · exact hseen23 (List.mem_cons_of_mem _ ((h.seen_eq _).2 ((h.seen_eq _).1
          (h.covered c hc te hte))))
    · intro a ha
      show _ ∨ _
      have ha3 : a ∈ st3.seen := ha
      have hsrc3 := foldl_addThread_new_seen (f (emailConv e)) st2 a (hst3 ▸ ha3)
      rcases hsrc3 with ha2 | ⟨te, hte, hid⟩
      · rcases List.mem_cons.1 ha2 with rfl | hast
        · refine Or.inr ⟨e, he, rfl, Or.inr ?_⟩
          show emailConv e ∈ st3.seenConvs
          rw [hconvs3]
          exact List.mem_cons_self _ _
        · rcases h.src a hast with ⟨c, hcm, te, hte, hid⟩ | ⟨s, hs, hid, hor⟩
          · refine Or.inl ⟨c, ?_, te, hte, hid⟩
            show c ∈ st3.seenConvs
            rw [hconvs3]
            exact List.mem_cons_of_mem _ hcm
          · refine Or.inr ⟨s, hs, hid, ?_⟩
            rcases hor with h0 | hm
            · exact Or.inl h0
            · refine Or.inr ?_
              show emailConv s ∈ st3.seenConvs
              rw [hconvs3]
              exact List.mem_cons_of_mem _ hm
      · refine Or.inl ⟨emailConv e, ?_, te, hte, hid⟩
        show emailConv e ∈ st3.seenConvs
        rw [hconvs3]
        exact List.mem_cons_self _ _
  · have hor : emailConv e = "" ∨ emailConv e ∈ st.seenConvs := by
      by_cases h0 : emailConv e = ""
      · exact Or.inl h0
      · refine Or.inr ?_
        by_contra hm
        exact hcv ⟨h0, hm⟩
    rw [expandStep_eq_plain f st e hskip hcv]
    refine ⟨?_, ?_, ?_, ?_⟩
    · intro a
      show a ∈ e.id :: st.seen ↔ a ∈ idsOf (st.expanded ++ [e])
      rw [List.mem_cons, h.seen_eq a]
      simp only [idsOf, List.map_append, List.map_cons, List.map_nil, List.mem_append,
        List.mem_singleton]
      constructor
      · rintro (rfl | hin)
        · exact Or.inr rfl
        · exact Or.inl hin
      · rintro (hin | rfl)
        · exact Or.inr hin
        · exact Or.inl rfl
    · show (idsOf (st.expanded ++ [e])).Nodup
      simp only [idsOf, List.map_append, List.map_cons, List.map_nil]
      rw [List.nodup_append]
      refine ⟨h.nodup, List.nodup_singleton _, ?_⟩
      intro a ha hb
      rcases List.mem_cons.1 hb with rfl | hb
      · exact hnotid ha
      · exact absurd hb (List.not_mem_nil a)
    · intro c hc te hte
      exact List.mem_cons_of_mem _ (h.covered c hc te hte)
    · intro a ha
      rcases List.mem_cons.1 ha with rfl | hast
      · exact Or.inr ⟨e, he, rfl, hor⟩
      · rcases h.src a hast with ⟨c, hcm, te, hte, hid⟩ | ⟨s, hs, hid, hor2⟩
        · exact Or.inl ⟨c, hcm, te, hte, hid⟩
        · exact Or.inr ⟨s, hs, hid, hor2⟩

theorem foldl_expandStep_inv (f : String → List Email) (seeds : List Email) :
    ∀ (l : List Email) (st : ExpState), (∀ e ∈ l, e ∈ seeds) → ExpInv f seeds st →
      ExpInv f seeds (l.foldl (expandStep f) st) := by
  intro l
  induction l with
  | nil => intro st _ h; exact h
  | cons e t ih =>
    intro st hsub h
    exact ih (expandStep f st e) (fun x hx => hsub x (List.mem_cons_of_mem _ hx))
      (expandStep_inv f seeds st e (hsub e (List.mem_cons_self _ _)) h)

theorem foldl_expandStep_seen_mono (f : String → List Email) :
    ∀ (l : List Email) (st : ExpState), st.seen ⊆ (l.foldl (expandStep f) st).seen := by
  intro l
  induction l with
  | nil => intro st; exact fun _ h => h
  | cons e t ih =>
    intro st
    exact fun _ h => ih (expandStep f st e) (expandStep_seen_mono f st e h)

theorem foldl_expandStep_seeds_seen (f : String → List Email) :
    ∀ (l : List Email) (st : ExpState), ∀ s ∈ l, s.id ∈ (l.foldl (expandStep f) st).seen := by
  intro l
  induction l with
  | nil => intro st s h; exact absurd h (List.not_mem_nil s)
  | cons e t ih =>
    intro st s h
    rcases List.mem_cons.1 h with heq | ht
    · subst heq
      exact foldl_expandStep_seen_mono f t (expandStep f st s) (expandStep_self_seen f st s)
    · exact ih (expandStep f st e) s ht

/-- Counterexample for C2: with two seed hits sharing the id A, the second
one carrying the conversation id C, the record B of thread C returned by
the thread fetch never enters the working set, because the second seed is
skipped by the seen id check before its thread is fetched. -/
theorem C2_expand_counterexample :
    ¬ (∀ s ∈ [({id := "A"} : Email), ({id := "A", metadata := {conversation_id := "C"}} : Email)],
        s.metadata.conversation_id ≠ "" →
        ∀ te ∈ getThreadEmails
            [({id := "B", metadata := {conversation_id := "C"}} : Email)]
            s.metadata.conversation_id,
          te.id ∈ idsOf (expandWithThreads
            (getThreadEmails [({id := "B", metadata := {conversation_id := "C"}} : Email)])
            [({id := "A"} : Email),
             ({id := "A", metadata := {conversation_id := "C"}} : Email)])) := by
  decide

/-- C2 amended: for every input list of seed hits, thread expansion
returns a working set with no id twice and containing the id of every
seed hit; and provided additionally that no two seed hits with equal ids
carry different conversation ids and the conversation id of every seed
agrees with the stored records sharing its id, the working set also
contains the id of every record of every thread fetched for a seed with a
non-empty conversation id. -/
theorem C2_expand_amended (seeds store : List Email) :
    (idsOf (expandWithThreads (getThreadEmails store) seeds)).Nodup
    ∧ (∀ s ∈ seeds, s.id ∈ idsOf (expandWithThreads (getThreadEmails store) seeds))
    ∧ ((∀ s ∈ seeds, ∀ t ∈ seeds, s.id = t.id →
          s.metadata.conversation_id = t.metadata.conversation_id) →
       (∀ s ∈ seeds, ∀ t ∈ store, s.id = t.id →
          s.metadata.conversation_id = t.metadata.conversation_id) →
       ∀ s ∈ seeds, s.metadata.conversation_id ≠ "" →
        ∀ te ∈ getThreadEmails store s.metadata.conversation_id,
          te.id ∈ idsOf (expandWithThreads (getThreadEmails store) seeds)) := by
  have hinit : ExpInv (getThreadEmails store) seeds ⟨[], [], []⟩ := by
    refine ⟨?_, ?_, ?_, ?_⟩
    · intro a; simp [idsOf]
    · simp [idsOf]
    · intro c hc; exact absurd hc (List.not_mem_nil c)
    · intro a ha; exact absurd ha (List.not_mem_nil a)
  have hinv : ExpInv (getThreadEmails store) seeds
      (seeds.foldl (expandStep (getThreadEmails store)) ⟨[], [], []⟩) :=
    foldl_expandStep_inv _ seeds seeds ⟨[], [], []⟩ (fun _ h => h) hinit
  have hout : expandWithThreads (getThreadEmails store) seeds
      = (seeds.foldl (expandStep (getThreadEmails store)) ⟨[], [], []⟩).expanded := rfl
  refine ⟨?_, ?_, ?_⟩
  · rw [hout]; exact hinv.nodup
  · intro s hs
    rw [hout]
    exact (hinv.seen_eq s.id).1 (foldl_expandStep_seeds_seen _ seeds ⟨[], [], []⟩ s hs)
  · intro hseed hstore s hs hconv te hte
    have hsid : s.id ∈ (seeds.foldl (expandStep (getThreadEmails store)) ⟨[], [], []⟩).seen :=
      foldl_expandStep_seeds_seen _ seeds ⟨[], [], []⟩ s hs
    have hconvmem : s.metadata.conversation_id ∈
        (seeds.foldl (expandStep (getThreadEmails store)) ⟨[], [], []⟩).seenConvs := by
      rcases hinv.src s.id hsid with ⟨c, hcm, te2, hte2, hid⟩ | ⟨s2, hs2, hid, hor⟩
      · by_cases hc0 : c = ""
        · subst hc0
          simp [getThreadEmails] at hte2
        · have hte2m : te2 ∈ store ∧ te2.metadata.conversation_id = c := by
            unfold getThreadEmails at hte2
            rw [if_neg hc0, mem_sortByKey] at hte2
            have h2 := List.mem_filter.1 hte2
            simpa using h2
          have hcc := hstore s hs te2 hte2m.1 hid.symm
          rw [hcc, hte2m.2]
          exact hcm
      · have hcc := hseed s hs s2 hs2 hid.symm
        rcases hor with h0 | hm
        · exact absurd (hcc.trans h0) hconv
        · rw [hcc]
          exact hm
    rw [hout]
    exact (hinv.seen_eq te.id).1 (hinv.covered _ hconvmem te hte)

/-- Witness for C2 amended: one seed in thread C over a store holding a
second record of the thread; the hypotheses hold and the guarantee
applies. -/
theorem C2_expand_amended_witness :
    (idsOf (expandWithThreads
        (getThreadEmails [({id := "B", metadata := {conversation_id := "C"}} : Email)])
        [({id := "A", metadata := {conversation_id := "C"}} : Email)])).Nodup
    ∧ (∀ s ∈ [({id := "A", metadata := {conversation_id := "C"}} : Email)],
        s.id ∈ idsOf (expandWithThreads
          (getThreadEmails [({id := "B", metadata := {conversation_id := "C"}} : Email)])
          [({id := "A", metadata := {conversation_id := "C"}} : Email)]))
    ∧ (∀ s ∈ [({id := "A", metadata := {conversation_id := "C"}} : Email)],
        s.metadata.conversation_id ≠ "" →
        ∀ te ∈ getThreadEmails [({id := "B", metadata := {conversation_id := "C"}} : Email)]
            s.metadata.conversation_id,
          te.id ∈ idsOf (expandWithThreads
            (getThreadEmails [({id := "B", metadata := {conversation_id := "C"}} : Email)])
            [({id := "A", metadata := {conversation_id := "C"}} : Email)])) :=
  ⟨(C2_expand_amended
      [({id := "A", metadata := {conversation_id := "C"}} : Email)]
      [({id := "B", metadata := {conversation_id := "C"}} : Email)]).1,
   (C2_expand_amended
      [({id := "A", metadata := {conversation_id := "C"}} : Email)]
      [({id := "B", metadata := {conversation_id := "C"}} : Email)]).2.1,
   (C2_expand_amended
      [({id := "A", metadata := {conversation_id := "C"}} : Email)]
      [({id := "B", metadata := {conversation_id := "C"}} : Email)]).2.2
     (by decide) (by decide)⟩
